import Mathlib

/-!
Shallow embedding of konfig (src/konfig/__init__.py): the value codec
(ExtendedEnvironmentInterpolation._serialize / _unserialize and the
multi-line branch of before_get), the interpolation engine
(configparser.ExtendedInterpolation._interpolate_some as driven by
ExtendedEnvironmentInterpolation.before_get), the extension resolver
(Config._read / Config._extend) over abstract pre-parsed documents, and
SettingsDict.setdefaults.  Strings are modelled as Lean String / List Char
(ASCII-faithful), Python ints as unbounded Int (Python 2 int/long).
-/

deriving instance DecidableEq for Except

namespace Konfig

/-- Whitespace characters stripped by Python str.strip(). -/
def isWsChar (c : Char) : Bool :=
  c = ' ' || c = '\t' || c = '\n' || c = '\r' || c = '\x0b' || c = '\x0c'

/-- Drop leading whitespace (left part of str.strip()). -/
def stripLeft (cs : List Char) : List Char := cs.dropWhile isWsChar

/-- Drop trailing whitespace (right part of str.strip()). -/
def stripRight (cs : List Char) : List Char := (stripLeft cs.reverse).reverse

/-- Python str.strip(): drop leading and trailing whitespace. -/
def pyStrip (cs : List Char) : List Char := stripLeft (stripRight cs)

/-- Python str.split(sep) for a one-character separator; splitting the
empty string yields one empty field, like Python. -/
def splitOnChar (sep : Char) : List Char → List (List Char)
  | [] => [[]]
  | c :: cs =>
    if c = sep then [] :: splitOnChar sep cs
    else
      match splitOnChar sep cs with
      | g :: gs => (c :: g) :: gs
      | [] => [[c]]

/-- Python sep.join for separator newline, used by _serialize for lists. -/
def joinNl : List (List Char) → List Char
  | [] => []
  | [x] => x
  | x :: xs => x ++ '\n' :: joinNl xs

/-- Association-list lookup modelling Python dict indexing (dict keys are
unique, so first-match lookup is exact). -/
def alookup {α : Type} : List (String × α) → String → Option α
  | [], _ => none
  | p :: rest, k => if p.1 = k then some p.2 else alookup rest k

/-- Python dict assignment d[k] = v on the association-list model: replace
the entry in place when the key exists, append otherwise. -/
def setItem {α : Type} (m : List (String × α)) (k : String) (v : α) :
    List (String × α) :=
  if (alookup m k).isSome then
    m.map (fun p => if p.1 = k then (p.1, v) else p)
  else m ++ [(k, v)]

/-- A scalar typed value produced by _unserialize: Python int, bool or str. -/
inductive Scalar where
  | i (n : Int)
  | b (v : Bool)
  | s (text : String)
deriving DecidableEq

/-- A typed value as seen through before_get / before_set: a scalar or the
list of scalars produced by the multi-line branch of before_get. -/
inductive Value where
  | sc (x : Scalar)
  | ls (items : List Scalar)
deriving DecidableEq

/-- The regex _IS_NUMBER = re.compile of caret dash-optional digit dot-star:
true iff the text starts with a digit, or with a dash followed by a digit. -/
def matchesNumber (cs : List Char) : Bool :=
  match cs with
  | c :: rest =>
    if c = '-' then
      match rest with
      | c2 :: _ => c2.isDigit
      | [] => false
    else c.isDigit
  | [] => false

/-- Value of a nonempty all-digit character run, else none. -/
def digitsVal (cs : List Char) : Option Nat :=
  if cs ≠ [] ∧ cs.all Char.isDigit then
    some (cs.foldl (fun a c => 10 * a + (c.toNat - 48)) 0)
  else none

/-- Python 2 int() applied to already-stripped text: an optional single
sign followed by one or more ASCII digits; none models ValueError. -/
def pyIntParse (cs : List Char) : Option Int :=
  match cs with
  | c :: rest =>
    if c = '-' then (digitsVal rest).map (fun n => -(n : Int))
    else if c = '+' then (digitsVal rest).map (fun n => (n : Int))
    else (digitsVal cs).map (fun n => (n : Int))
  | [] => none

/-- Python str.lower() (ASCII). -/
def toLowerL (cs : List Char) : List Char := cs.map Char.toLower

/-- Body of ExtendedEnvironmentInterpolation._unserialize after the strip:
the ordered type-sniffing rules.  A failed int() parse falls through to
returning the text unchanged (the Python code passes inside the first
branch, skipping the elif rules). -/
def unserializeCore (v : List Char) : Scalar :=
  if matchesNumber v then
    match pyIntParse v with
    | some n => .i n
    | none => .s ⟨v⟩
  else if v.head? = some '"' ∧ v.getLast? = some '"' then
    .s ⟨(v.drop 1).dropLast⟩
  else if toLowerL v = "true".data ∨ toLowerL v = "false".data then
    .b (toLowerL v = "true".data)
  else .s ⟨v⟩

/-- ExtendedEnvironmentInterpolation._unserialize on a string input:
strip, then apply the ordered decode rules. -/
def unserialize (cs : List Char) : Scalar := unserializeCore (pyStrip cs)

/-- The multi-line branch of before_get: split on newlines, _unserialize
each line, and keep the decoded values that are not the empty string. -/
def decodeLines (cs : List Char) : List Scalar :=
  ((splitOnChar '\n' cs).map unserialize).filter
    (fun e => decide (e ≠ Scalar.s ""))

/-- The codec tail of before_get, applied to the interpolated text: the
multi-line list branch when the text contains a newline, else a single
_unserialize. -/
def decodeRawL (cs : List Char) : Value :=
  if '\n' ∈ cs then .ls (decodeLines cs) else .sc (unserialize cs)

/-- String-level wrapper of decodeRawL. -/
def decodeRawS (s : String) : Value := decodeRawL s.data

/-- ASCII digit character for a digit value below ten. -/
def digitChar (d : Nat) : Char := Char.ofNat (48 + d)

/-- Fuel-driven big-endian decimal digits of a natural number; with fuel
above n this is the standard no-leading-zero decimal form. -/
def natToDecAux : Nat → Nat → List Char
  | 0, _ => []
  | fuel + 1, n =>
    if n < 10 then [digitChar n]
    else natToDecAux fuel (n / 10) ++ [digitChar (n % 10)]

/-- Decimal digits of a natural number, as produced by Python str(). -/
def natToDec (n : Nat) : List Char := natToDecAux (n + 1) n

/-- Python str() of an int: optional leading minus then decimal digits. -/
def intToDec (i : Int) : List Char :=
  if i < 0 then '-' :: natToDec i.natAbs else natToDec i.natAbs

/-- Python str() of a scalar, as used by the percent-s formatting in the
list branch of _serialize: note booleans render capitalized. -/
def pyStr : Scalar → List Char
  | .i n => intToDec n
  | .b true => "True".data
  | .b false => "False".data
  | .s t => t.data

/-- ExtendedEnvironmentInterpolation._serialize: bools lowercase, ints in
decimal, lists joined by newline with four spaces of indentation and the
whole result stripped, everything else stringified as-is. -/
def serializeL : Value → List Char
  | .sc (.b v) => if v then "true".data else "false".data
  | .sc (.i n) => intToDec n
  | .sc (.s t) => t.data
  | .ls items => pyStrip (joinNl (items.map (fun e => "    ".data ++ pyStr e)))

/-- String-level wrapper of serializeL. -/
def serializeS (v : Value) : String := ⟨serializeL v⟩

/-- Errors raised by configparser interpolation: a missing name (raised
as InterpolationMissingOptionError by ExtendedInterpolation when the
looked-up key is absent), a syntax error (bad dollar escape, unmatched
or empty braces, a path with more than two colon-separated parts), and
the depth error for interpolation nested beyond ten levels. -/
inductive InterpError where
  | missingOption (name : String)
  | malformed
  | depthError
deriving DecidableEq

/-- Resolution of one brace-enclosed name by
ExtendedInterpolation._interpolate_some: split on the colon; one part is
looked up in the map (before_get passes the environment-plus-HERE dict),
two parts are a raw cross-section fetch through the parser (modelled by
getRaw), more parts raise a syntax error.  A found value containing a
dollar is interpolated one level deeper via recurse; otherwise it is
appended verbatim. -/
def resolveName (getRaw : String → String → Option String)
    (recurse : String → List Char → Except InterpError (List Char))
    (sect : String) (map : List (String × String)) (nameCs : List Char) :
    Except InterpError (List Char) :=
  match splitOnChar ':' nameCs with
  | [n] =>
    match alookup map ⟨n⟩ with
    | none => .error (.missingOption ⟨nameCs⟩)
    | some v => if '$' ∈ v.data then recurse sect v.data else .ok v.data
  | [sct, opt] =>
    match getRaw ⟨sct⟩ ⟨opt⟩ with
    | none => .error (.missingOption ⟨nameCs⟩)
    | some v => if '$' ∈ v.data then recurse ⟨sct⟩ v.data else .ok v.data
  | _ => .error .malformed

/-- The scanning loop of _interpolate_some: a double dollar escapes to one
dollar, a dollar-brace opens a name (accumulated reversed in the mode
argument until the closing brace, mirroring the KEYCRE regex whose name
part is one or more non-brace characters), a dollar followed by anything
else is a syntax error, and ordinary characters pass through. -/
def interpStep (resolve : List Char → Except InterpError (List Char)) :
    Option (List Char) → List Char → Except InterpError (List Char)
  | none, [] => .ok []
  | none, c :: cs =>
    if c = '$' then
      match cs with
      | c2 :: cs2 =>
        if c2 = '$' then (fun t => '$' :: t) <$> interpStep resolve none cs2
        else if c2 = '{' then interpStep resolve (some []) cs2
        else .error .malformed
      | [] => .error .malformed
    else (fun t => c :: t) <$> interpStep resolve none cs
  | some _, [] => .error .malformed
  | some acc, c :: cs =>
    if c = '}' then
      if acc.isEmpty then .error .malformed
      else do
        let v ← resolve acc.reverse
        let tail ← interpStep resolve none cs
        .ok (v ++ tail)
    else interpStep resolve (some (c :: acc)) cs

/-- Depth-limited _interpolate_some: the fuel counts the interpolation
levels still allowed (before_get starts at depth one with ten levels
allowed); a nested value is interpolated with one level less, against the
raw items of its section (itemsRaw models dict of parser.items with raw
true). -/
def interpDepth (getRaw : String → String → Option String)
    (itemsRaw : String → List (String × String)) :
    Nat → String → List (String × String) → List Char →
      Except InterpError (List Char)
  | 0, _, _, _ => .error .depthError
  | fuel + 1, sect, map, rest =>
    interpStep
      (resolveName getRaw
        (fun sct v => interpDepth getRaw itemsRaw fuel sct (itemsRaw sct) v)
        sect map)
      none rest

/-- posixpath.dirname: everything before the final slash, with trailing
slashes then stripped unless the head is all slashes. -/
def dirname (p : String) : String :=
  let head := (p.data.reverse.dropWhile (fun c => c ≠ '/')).reverse
  if head ≠ [] ∧ ¬ head.all (fun c => c = '/') then
    ⟨(head.reverse.dropWhile (fun c => c = '/')).reverse⟩
  else ⟨head⟩

/-- ExtendedEnvironmentInterpolation.before_get: replace the defaults map
by the environment snapshot, bind HERE to the escaped literal when the
parser has no filename and to the directory of the filename otherwise,
run the base-class interpolation at depth one, then apply the codec tail
(multi-line list branch or a single _unserialize). -/
def beforeGet (getRaw : String → String → Option String)
    (itemsRaw : String → List (String × String))
    (environment : List (String × String)) (filename : Option String)
    (sect : String) (value : String) : Except InterpError Value :=
  let defaults := setItem environment "HERE"
    (match filename with
     | some f => dirname f
     | none => "$${HERE}")
  (interpDepth getRaw itemsRaw 10 sect defaults value.data).map decodeRawL

/-- A parser with no cross-section raw fetches available (stands for a
parser whose sections are irrelevant to the value being read). -/
def noGet : String → String → Option String := fun _ _ => none

/-- A parser with no raw section items (stands for a parser whose
sections are irrelevant to the value being read). -/
def noItems : String → List (String × String) := fun _ => []

/-- Python str.replace of one dollar by two, applied by
ExtendedEnvironmentInterpolation.__init__ to every environment value so
the interpolation pass restores them verbatim. -/
def escapeDollars (s : String) : String :=
  ⟨s.data.foldr (fun c acc => if c = '$' then '$' :: '$' :: acc else c :: acc) []⟩

/-- The environment snapshot built once in
ExtendedEnvironmentInterpolation.__init__ from the process environment,
with dollars escaped. -/
def mkEnvironment (osEnv : List (String × String)) : List (String × String) :=
  osEnv.map (fun p => (p.1, escapeDollars p.2))

/-- The interpolation state a Config carries after loading: the one-time
environment snapshot and the optional source filename. -/
structure LoadedInterp where
  environment : List (String × String)
  filename : Option String

/-- Construction of the interpolation state at load time from the process
environment of that moment. -/
def loadInterp (osEnv : List (String × String)) (filename : Option String) :
    LoadedInterp :=
  ⟨mkEnvironment osEnv, filename⟩

/-- One value read after the load.  The first argument is the process
environment at read time: before_get consults only the snapshot stored at
load time (self.environment) and never re-reads os.environ, so that
argument is deliberately unused, exactly as in the code. -/
def getValueAt (_procEnv : List (String × String)) (cfg : LoadedInterp)
    (getRaw : String → String → Option String)
    (itemsRaw : String → List (String × String))
    (sect : String) (raw : String) : Except InterpError Value :=
  beforeGet getRaw itemsRaw cfg.environment cfg.filename sect raw

/-- Options of one section: ordered mapping from option name to raw
stored text (option names are case-preserved and unique). -/
abbrev Options := List (String × String)

/-- The named sections of a parsed document in first-appearance order.
The base INI parsing that produces this structure is the external
collaborator of the spec; default-section fallthrough of the base parser
is likewise external and not modelled. -/
abbrev Sections := List (String × Options)

/-- A parsed configuration document: the DEFAULT section options and the
named sections, all raw text. -/
structure ConfigDoc where
  defaults : Options
  sections : Sections
deriving DecidableEq

/-- Exceptions raised while loading.  Config._extend raises IOError (an
OSError; not FileNotFoundError — in Python 2 that class does not exist,
and in Python 3 the raise builds a plain OSError) when the referenced
path is not a file; ConfigParser.set raises TypeError for a non-string
value; ExtendedInterpolation.before_set raises ValueError on a stray
dollar; reading a secondary value can raise an interpolation error.  Only
the ioError case is an OSError. -/
inductive PyError where
  | ioError (path : String)
  | typeError
  | valueError
  | interpolation (e : InterpError)
deriving DecidableEq

/-- Python str.replace of a double dollar by nothing, scanning left to
right without overlap, as in ExtendedInterpolation.before_set. -/
def removeDollarDollar : List Char → List Char
  | '$' :: '$' :: rest => removeDollarDollar rest
  | c :: rest => c :: removeDollarDollar rest
  | [] => []

/-- KEYCRE.sub of the empty string: delete every non-overlapping match
of a dollar-brace reference with a non-empty brace-free name, scanning
left to right; unmatched openers are kept as literal text.  The mode
argument buffers a candidate name (reversed) after an opening
dollar-brace. -/
def removeKeyRefs : Option (List Char) → List Char → List Char
  | none, [] => []
  | some acc, [] => '$' :: '{' :: acc.reverse
  | none, '$' :: '{' :: cs2 => removeKeyRefs (some []) cs2
  | none, c :: cs => c :: removeKeyRefs none cs
  | some acc, c :: cs =>
    if c = '}' then
      if acc.isEmpty then '$' :: '{' :: '}' :: removeKeyRefs none cs
      else removeKeyRefs none cs
    else removeKeyRefs (some (c :: acc)) cs

/-- The stray-dollar test of ExtendedInterpolation.before_set: drop the
escaped double dollars, drop every well-formed reference, and raise
ValueError when a dollar remains.  True means the ValueError is
raised. -/
def beforeSetCheck (t : String) : Bool :=
  '$' ∈ removeKeyRefs none (removeDollarDollar t.data)

/-- The store path taken by every option copy of Config._extend:
ConfigParser.set first validates that the value is a string (TypeError
otherwise — decoded ints, booleans and lists never reach before_set),
then RawConfigParser.set skips before_set for a falsy empty string and
otherwise runs ExtendedEnvironmentInterpolation.before_set: the
base-class stray-dollar check (ValueError) followed by _serialize, the
identity on strings.  Returns the raw text stored into the slot. -/
def setStoredText (v : Value) : Except PyError String :=
  match v with
  | .sc (.s t) =>
    if t = "" then .ok ""
    else if beforeSetCheck t then .error .valueError
    else .ok (serializeS v)
  | _ => .error .typeError

/-- Lowercase hexadecimal digit. -/
def hexDigit (n : Nat) : Char :=
  if n < 10 then digitChar n else Char.ofNat (87 + n)

/-- The single-quote character. -/
def squote : Char := Char.ofNat 39

/-- Python repr of a plain string: single quotes (double quotes when the
text contains a single quote but no double quote), with backslashes, the
quote character, newline, carriage return, tab, and non-printable bytes
escaped. -/
def pyReprStr (t : String) : List Char :=
  let q : Char := if squote ∈ t.data ∧ '"' ∉ t.data then '"' else squote
  q :: t.data.foldr (fun c acc =>
    if c = '\\' then '\\' :: '\\' :: acc
    else if c = q then '\\' :: q :: acc
    else if c = '\n' then '\\' :: 'n' :: acc
    else if c = '\r' then '\\' :: 'r' :: acc
    else if c = '\t' then '\\' :: 't' :: acc
    else if c.toNat < 32 ∨ 126 < c.toNat then
      '\\' :: 'x' :: hexDigit (c.toNat / 16 % 16) :: hexDigit (c.toNat % 16)
        :: acc
    else c :: acc) [q]

/-- Python repr of a decoded scalar, as used by str() on a list. -/
def reprScalar : Scalar → List Char
  | .i n => intToDec n
  | .b true => "True".data
  | .b false => "False".data
  | .s t => pyReprStr t

/-- Comma-space join for the list repr. -/
def joinCommaSpace : List (List Char) → List Char
  | [] => []
  | [x] => x
  | x :: xs => x ++ ',' :: ' ' :: joinCommaSpace xs

/-- Python str() of a decoded value, as applied by read_dict before
re-storing a whole-section copy: scalars stringify via str(), lists via
the bracketed repr of their elements. -/
def pyStrValue : Value → String
  | .sc x => ⟨pyStr x⟩
  | .ls items => ⟨'[' :: joinCommaSpace (items.map reprScalar) ++ [']']⟩

/-- Raw fetch parser.get(sect, opt, raw=True) on a document: the option
of the named section, falling back to the DEFAULT entries. -/
def docGetRaw (d : ConfigDoc) (sct opt : String) : Option String :=
  match alookup d.sections sct with
  | none => none
  | some opts =>
    match alookup opts opt with
    | some v => some v
    | none => alookup d.defaults opt

/-- Raw items parser.items(sect, raw=True) on a document: the section
options shadowing the DEFAULT entries (first-match lookup order). -/
def docItemsRaw (d : ConfigDoc) (sct : String) : List (String × String) :=
  match alookup d.sections sct with
  | some opts => opts ++ d.defaults
  | none => d.defaults

/-- The option loop of Config._extend for a section already present in
the primary document: each secondary option whose name is not already
present (membership checked against the section's own evolving options;
default-section fallthrough of the base parser stays external, spec
section 6) is read decoded through the secondary proxy (readV, the
before_get path of the secondary parser) and re-stored through set /
before_set.  A raised exception aborts the loop, leaving the options
copied so far; the pair returns the final state and the exception. -/
def mergeOptionsInto (readV : String → Except InterpError Value)
    (primary : Options) : List (String × String) → Options × Option PyError
  | [] => (primary, none)
  | (o, raw) :: rest =>
    if (alookup primary o).isSome then mergeOptionsInto readV primary rest
    else
      match readV raw with
      | .error e => (primary, some (.interpolation e))
      | .ok v =>
        match setStoredText v with
        | .error e => (primary, some e)
        | .ok stored => mergeOptionsInto readV (primary ++ [(o, stored)]) rest

/-- Replacement of the options of every section with the given name (the
section proxy writes through to the one underlying section dict; section
names are unique per the data-model invariant). -/
def replaceSections (secs : Sections) (name : String) (newOpts : Options) :
    Sections :=
  secs.map (fun q => if q.1 = name then (q.1, newOpts) else q)

/-- The read_dict path taken by a whole-section copy
(self[section] = parser[section]): every secondary option is read decoded
through the proxy, str()-converted, and stored through set / before_set
into the freshly added section, unconditionally and in order; an
exception aborts the loop, leaving the options stored so far. -/
def readDictStore (readV : String → Except InterpError Value)
    (acc : Options) : List (String × String) → Options × Option PyError
  | [] => (acc, none)
  | (o, raw) :: rest =>
    match readV raw with
    | .error e => (acc, some (.interpolation e))
    | .ok v =>
      match setStoredText (.sc (.s (pyStrValue v))) with
      | .error e => (acc, some e)
      | .ok stored => readDictStore readV (acc ++ [(o, stored)]) rest

/-- The section loop of Config._extend over the named sections: merge
options into an existing primary section of the same name, or add the
whole secondary section through read_dict when the name is new.  readV
gives, per section name, the decoded read of a raw value through the
secondary parser.  Exceptions abort the loop with the partial state. -/
def extendSectionsInto (readV : String → String → Except InterpError Value)
    (primary : Sections) : Sections → Sections × Option PyError
  | [] => (primary, none)
  | (n2, opts2) :: rest =>
    match alookup primary n2 with
    | some popts =>
      match mergeOptionsInto (readV n2) popts opts2 with
      | (merged, some e) => (replaceSections primary n2 merged, some e)
      | (merged, none) =>
        extendSectionsInto readV (replaceSections primary n2 merged) rest
    | none =>
      match readDictStore (readV n2) [] opts2 with
      | (newOpts, some e) => (primary ++ [(n2, newOpts)], some e)
      | (newOpts, none) =>
        extendSectionsInto readV (primary ++ [(n2, newOpts)]) rest

/-- Config._extend: raise IOError when the path names no file, otherwise
parse the referenced file as an independent secondary document (parsing
is the external collaborator, so the filesystem maps paths to parsed
documents) with its own fresh environment snapshot and its own HERE (the
directory of the extension file), then iterate over the secondary
parser: the DEFAULT section first (merged into the primary defaults
under the same not-already-present rule and the same decoded copy path),
then the named sections.  The pair returns the resulting state and the
exception, if one was raised. -/
def extendConfig (osEnv : List (String × String))
    (fs : String → Option ConfigDoc) (self : ConfigDoc) (filename : String) :
    ConfigDoc × Option PyError :=
  match fs filename with
  | none => (self, some (.ioError filename))
  | some sec =>
    let readV := fun sectName raw =>
      beforeGet (docGetRaw sec) (docItemsRaw sec) (mkEnvironment osEnv)
        (some filename) sectName raw
    match mergeOptionsInto (readV "DEFAULT") self.defaults sec.defaults with
    | (defs2, some e) => (⟨defs2, self.sections⟩, some e)
    | (defs2, none) =>
      match extendSectionsInto readV self.sections sec.sections with
      | (secs2, err) => (⟨defs2, secs2⟩, err)

/-- The expansion step of Config._read after the first parsing pass: read
the extends option from self.defaults().  That call returns the raw
defaults mapping, so the value is always a single raw string, never a
decoded list (the isinstance list test can only be false); it is wrapped
in a one-element list and each entry is passed to _extend, an exception
aborting the loop. -/
def resolveExtends (osEnv : List (String × String))
    (fs : String → Option ConfigDoc) (doc : ConfigDoc) :
    ConfigDoc × Option PyError :=
  match alookup doc.defaults "extends" with
  | none => (doc, none)
  | some raw =>
    ([raw] : List String).foldl
      (fun st f =>
        match st with
        | (d, some e) => (d, some e)
        | (d, none) => extendConfig osEnv fs d f)
      (doc, none)

/-- A load source for Config.__init__: a filesystem path or an in-memory
stream already holding a parsed document. -/
inductive Source where
  | path (p : String)
  | stream (doc : ConfigDoc)

/-- Config.__init__.  A path source goes through ConfigParser.read,
which wraps both the open and self._read in an except-OSError-continue:
a missing file is silently skipped (empty document), and an IOError
raised by _extend inside _read is swallowed too, leaving the parsed but
unextended (or partially extended) primary document; exceptions that are
not OSError (TypeError, ValueError, interpolation errors) propagate.  A
stream source goes through read_file, which has no handler, so every
exception propagates and aborts the load. -/
def loadConfig (osEnv : List (String × String))
    (fs : String → Option ConfigDoc) : Source → Except PyError ConfigDoc
  | .path p =>
    match fs p with
    | none => .ok ⟨[], []⟩
    | some doc =>
      match resolveExtends osEnv fs doc with
      | (d, none) => .ok d
      | (d, some e) =>
        match e with
        | .ioError _ => .ok d
        | _ => .error e
  | .stream doc =>
    match resolveExtends osEnv fs doc with
    | (d, none) => .ok d
    | (_, some e) => .error e

/-- Python dict.setdefault on the association-list model: keep an
existing entry untouched, append the pair otherwise. -/
def pySetdefault {α : Type} (d : List (String × α)) (k : String) (v : α) :
    List (String × α) :=
  match alookup d k with
  | some _ => d
  | none => d ++ [(k, v)]

/-- One positional argument of SettingsDict.setdefaults: either a mapping
(an object with keys, iterated as key-value entries; dict keys are
unique so indexing returns the paired value) or a sequence of pairs. -/
inductive SetdefaultsArg (α : Type) where
  | mapping (entries : List (String × α))
  | pairs (entries : List (String × α))

/-- Application of one positional argument: every entry goes through
setdefault against the evolving dict. -/
def applySetdefaultsArg {α : Type} (d : List (String × α)) :
    SetdefaultsArg α → List (String × α)
  | .mapping entries => entries.foldl (fun d p => pySetdefault d p.1 p.2) d
  | .pairs entries => entries.foldl (fun d p => pySetdefault d p.1 p.2) d

/-- SettingsDict.setdefaults: fold setdefault over every positional
argument, then over the keyword arguments. -/
def setdefaults {α : Type} (d : List (String × α))
    (args : List (SetdefaultsArg α)) (kwds : List (String × α)) :
    List (String × α) :=
  kwds.foldl (fun d p => pySetdefault d p.1 p.2)
    (args.foldl applySetdefaultsArg d)

/-! Association-list lemmas shared by the claims. -/

theorem alookup_append_some {α : Type} {d : List (String × α)} {k : String}
    {v : α} (l : List (String × α)) (h : alookup d k = some v) :
    alookup (d ++ l) k = some v := by
  induction d with
  | nil => simp [alookup] at h
  | cons p rest ih =>
    by_cases hp : p.1 = k
    · simpa [alookup, hp] using h
    · rw [List.cons_append]
      simp only [alookup, hp, if_false] at h ⊢
      exact ih h

theorem alookup_append_single_ne {α : Type} (d : List (String × α))
    {k2 k : String} (v2 : α) (h : k2 ≠ k) :
    alookup (d ++ [(k2, v2)]) k = alookup d k := by
  induction d with
  | nil => simp [alookup, h]
  | cons p rest ih =>
    by_cases hp : p.1 = k <;> simp [alookup, hp, ih]

theorem alookup_append_single_none {α : Type} {d : List (String × α)}
    {k : String} (v : α) (h : alookup d k = none) :
    alookup (d ++ [(k, v)]) k = some v := by
  induction d with
  | nil => simp [alookup]
  | cons p rest ih =>
    by_cases hp : p.1 = k
    · simp [alookup, hp] at h
    · rw [List.cons_append]
      simp only [alookup, hp, if_false] at h ⊢
      exact ih h

theorem alookup_map_setkey_self {α : Type} (m : List (String × α))
    (k : String) (v : α) (h : (alookup m k).isSome) :
    alookup (m.map (fun p => if p.1 = k then (p.1, v) else p)) k = some v := by
  induction m with
  | nil => simp [alookup] at h
  | cons p rest ih =>
    by_cases hp : p.1 = k
    · simp [alookup, hp]
    · simp only [alookup, hp, if_false] at h
      simpa [alookup, hp] using ih h

theorem alookup_map_setkey_ne {α : Type} (m : List (String × α))
    {k2 k : String} (v : α) (h : k2 ≠ k) :
    alookup (m.map (fun p => if p.1 = k2 then (p.1, v) else p)) k =
      alookup m k := by
  induction m with
  | nil => simp [alookup]
  | cons p rest ih =>
    have hk : k ≠ k2 := fun he => h he.symm
    by_cases hp : p.1 = k2
    · have hpk : p.1 ≠ k := by rw [hp]; exact h
      simp [alookup, hp, hpk, h, hk, ih]
    · by_cases hpk : p.1 = k <;> simp [alookup, hp, hpk, h, hk, ih]

theorem alookup_setItem_self {α : Type} (m : List (String × α)) (k : String)
    (v : α) : alookup (setItem m k v) k = some v := by
  unfold setItem
  by_cases h : (alookup m k).isSome
  · simp only [h, if_true]
    exact alookup_map_setkey_self m k v h
  · simp only [h, if_false]
    exact alookup_append_single_none v (by
      cases hm : alookup m k with
      | none => rfl
      | some w => rw [hm] at h; simp at h)

theorem alookup_setItem_ne {α : Type} (m : List (String × α)) {k k2 : String}
    (v : α) (h : k2 ≠ k) : alookup (setItem m k2 v) k = alookup m k := by
  unfold setItem
  by_cases hs : (alookup m k2).isSome
  · simp only [hs, if_true]
    exact alookup_map_setkey_ne m v h
  · simp only [hs, if_false]
    exact alookup_append_single_ne m v h

/-! Lemmas about the option-copy loop of Config._extend. -/

theorem serializeS_str (t : String) : serializeS (.sc (.s t)) = t := rfl

/-- A string with no ambiguous characters for the round-trip property:
strip-stable, newline-free, not parseable as an int when it matches the
number regex, and not quote-delimited or a boolean word when it does
not. -/
def NoAmbigString (t : String) : Prop :=
  pyStrip t.data = t.data ∧ '\n' ∉ t.data ∧
  (matchesNumber t.data = true → pyIntParse t.data = none) ∧
  (matchesNumber t.data = false →
    ¬(t.data.head? = some '"' ∧ t.data.getLast? = some '"') ∧
    toLowerL t.data ≠ "true".data ∧ toLowerL t.data ≠ "false".data)

instance (t : String) : Decidable (NoAmbigString t) := by
  unfold NoAmbigString; infer_instance

theorem unserializeCore_noAmbig {t : String} (h : NoAmbigString t) :
    unserializeCore t.data = .s t := by
  unfold unserializeCore
  cases hm : matchesNumber t.data with
  | true =>
    rw [if_pos rfl, h.2.2.1 hm]
  | false =>
    obtain ⟨hq, hb1, hb2⟩ := h.2.2.2 hm
    rw [if_neg Bool.false_ne_true, if_neg hq, if_neg (by simp [hb1, hb2])]

/-! Claim theorems: extension merge, load errors, extends handling,
environment snapshot, SettingsDict. -/

/-- C3 counterexample: a path-form load source naming no existing file is
silently skipped by ConfigParser.read, so the load succeeds with an empty
document instead of raising FileNotFoundError. -/
theorem missing_file_counterexample :
    loadConfig [] (fun _ => none) (.path "missing.conf") =
      .ok (⟨[], []⟩ : ConfigDoc) ∧
    loadConfig [] (fun _ => none) (.path "missing.conf") ≠
      .error (.ioError "missing.conf") :=
  ⟨rfl, by decide⟩

/-- C3 amended: a missing path-form load source is silently skipped and
the load returns an empty document without raising; a missing
extends-referenced path makes Config._extend raise IOError (not
FileNotFoundError) inside _read, which aborts a stream load with no
document, but for a path-form load the except-OSError-continue of
ConfigParser.read swallows that IOError and the load returns the parsed
but unextended primary document. -/
theorem missing_file_amended (osEnv : List (String × String))
    (fs : String → Option ConfigDoc) (doc : ConfigDoc) (p raw : String)
    (hext : alookup doc.defaults "extends" = some raw)
    (hfs : fs raw = none) :
    (∀ q, loadConfig osEnv (fun _ => none) (.path q) =
      .ok (⟨[], []⟩ : ConfigDoc)) ∧
    resolveExtends osEnv fs doc = (doc, some (.ioError raw)) ∧
    loadConfig osEnv fs (.stream doc) = .error (.ioError raw) ∧
    (fs p = some doc → loadConfig osEnv fs (.path p) = .ok doc) := by
  have hres : resolveExtends osEnv fs doc = (doc, some (.ioError raw)) := by
    unfold resolveExtends
    rw [hext]
    show extendConfig osEnv fs doc raw = (doc, some (.ioError raw))
    unfold extendConfig
    rw [hfs]
  refine ⟨fun q => rfl, hres, ?_, ?_⟩
  · simp only [loadConfig, hres]
  · intro hp
    simp only [loadConfig, hp, hres]

/-- C3 amended witness: the concrete missing-extends document errors for
a stream load and is returned unextended for a path load. -/
theorem missing_file_amended_witness :
    loadConfig [] (fun _ => none)
      (.stream (⟨[("extends", "ghost.conf")], []⟩ : ConfigDoc)) =
      .error (.ioError "ghost.conf") ∧
    loadConfig []
      (fun p => if p = "primary.conf" then
        some ⟨[("extends", "ghost.conf")], []⟩ else none)
      (.path "primary.conf") =
      .ok (⟨[("extends", "ghost.conf")], []⟩ : ConfigDoc) :=
  ⟨(missing_file_amended [] (fun _ => none)
      ⟨[("extends", "ghost.conf")], []⟩ "primary.conf" "ghost.conf"
      (by decide) rfl).2.2.1,
   (missing_file_amended []
      (fun p => if p = "primary.conf" then
        some ⟨[("extends", "ghost.conf")], []⟩ else none)
      ⟨[("extends", "ghost.conf")], []⟩ "primary.conf" "ghost.conf"
      (by decide) (by decide)).2.2.2 (by decide)⟩

/-- C6 counterexample: the extends value is read raw from self.defaults,
never interpolated or decoded, so a two-line value that the section 4.3
read path would decode to the list of paths a and b is instead passed
whole to _extend as a single filename, and resolution fails with IOError
even though both listed files exist. -/
theorem extends_decode_counterexample :
    resolveExtends []
      (fun p => if p = "a" then some ⟨[], [("sa", [("x", "1")])]⟩
        else if p = "b" then some ⟨[], [("sb", [("y", "2")])]⟩ else none)
      (⟨[("extends", "a\nb")], []⟩ : ConfigDoc) =
      (⟨[("extends", "a\nb")], []⟩, some (.ioError "a\nb")) ∧
    beforeGet noGet noItems [] none "DEFAULT" "a\nb" =
      .ok (.ls [.s "a", .s "b"]) :=
  ⟨by decide, by decide⟩

/-- C6 amended: during extension resolution the extends option is read
raw (uninterpolated, undecoded) from the default section; when absent,
resolution is a no-op, and when present the raw text is treated as the
single path of a one-element list and handed to _extend once. -/
theorem extends_raw_amended (osEnv : List (String × String))
    (fs : String → Option ConfigDoc) (doc : ConfigDoc) :
    (alookup doc.defaults "extends" = none →
      resolveExtends osEnv fs doc = (doc, none)) ∧
    (∀ raw, alookup doc.defaults "extends" = some raw →
      resolveExtends osEnv fs doc = extendConfig osEnv fs doc raw) := by
  constructor
  · intro h
    unfold resolveExtends
    rw [h]
  · intro raw h
    unfold resolveExtends
    rw [h]
    rfl

/-- C6 amended witness at a concrete document with and without extends. -/
theorem extends_raw_amended_witness :
    resolveExtends [] (fun _ => none)
      (⟨[], [("one", [("foo", "bar")])]⟩ : ConfigDoc) =
      (⟨[], [("one", [("foo", "bar")])]⟩, none) ∧
    resolveExtends [] (fun _ => none)
      (⟨[("extends", "x")], []⟩ : ConfigDoc) =
      extendConfig [] (fun _ => none)
        (⟨[("extends", "x")], []⟩ : ConfigDoc) "x" :=
  ⟨(extends_raw_amended [] (fun _ => none)
      ⟨[], [("one", [("foo", "bar")])]⟩).1 (by decide),
   (extends_raw_amended [] (fun _ => none) ⟨[("extends", "x")], []⟩).2 "x"
    (by decide)⟩

/-- C9: environment snapshot noninterference.  With FOO set to stuff in
the process environment at load time, reading the raw value some dollar
brace FOO yields the string some stuff; and a read depends only on the
snapshot stored at load time, so reads before and after any change of the
process environment return equal values. -/
theorem env_snapshot_noninterference :
    getValueAt [] (loadInterp [("FOO", "stuff")] none) noGet noItems "one"
      "some ${FOO}" = .ok (.sc (.s "some stuff")) ∧
    (∀ (procEnvBefore procEnvAfter : List (String × String))
      (cfg : LoadedInterp) (getRaw : String → String → Option String)
      (itemsRaw : String → List (String × String)) (sect raw : String),
      getValueAt procEnvBefore cfg getRaw itemsRaw sect raw =
        getValueAt procEnvAfter cfg getRaw itemsRaw sect raw) :=
  ⟨by decide, fun _ _ _ _ _ _ _ => rfl⟩

/-- Preservation of an existing entry through one setdefault call. -/
theorem alookup_pySetdefault_some {α : Type} {d : List (String × α)}
    {k : String} {v : α} (k2 : String) (v2 : α) (h : alookup d k = some v) :
    alookup (pySetdefault d k2 v2) k = some v := by
  unfold pySetdefault
  cases h2 : alookup d k2 with
  | some w => exact h
  | none => exact alookup_append_some [(k2, v2)] h

/-- Preservation of an existing entry through a fold of setdefault calls. -/
theorem alookup_foldl_pySetdefault {α : Type} (entries : List (String × α)) :
    ∀ (d : List (String × α)) (k : String) (v : α), alookup d k = some v →
      alookup (entries.foldl (fun d p => pySetdefault d p.1 p.2) d) k =
        some v := by
  induction entries with
  | nil => intro d k v h; simpa using h
  | cons p rest ih =>
    intro d k v h
    exact ih _ k v (alookup_pySetdefault_some p.1 p.2 h)

/-- Preservation of an existing entry through one positional argument. -/
theorem alookup_applySetdefaultsArg {α : Type} (arg : SetdefaultsArg α)
    (d : List (String × α)) (k : String) (v : α) (h : alookup d k = some v) :
    alookup (applySetdefaultsArg d arg) k = some v := by
  cases arg with
  | mapping entries => exact alookup_foldl_pySetdefault entries d k v h
  | pairs entries => exact alookup_foldl_pySetdefault entries d k v h

/-- Preservation through the fold over all positional arguments. -/
theorem alookup_foldl_args {α : Type} (args : List (SetdefaultsArg α)) :
    ∀ (d : List (String × α)) (k : String) (v : α), alookup d k = some v →
      alookup (args.foldl applySetdefaultsArg d) k = some v := by
  induction args with
  | nil => intro d k v h; simpa using h
  | cons arg rest ih =>
    intro d k v h
    exact ih _ k v (alookup_applySetdefaultsArg arg d k v h)

/-- C10: SettingsDict.setdefaults never modifies an existing entry.  For
every key bound in the dict before the call, with any combination of
mapping arguments, pair-sequence arguments and keyword arguments, the
value bound after the call is the value bound before. -/
theorem setdefaults_preserves_existing {α : Type} (d : List (String × α))
    (args : List (SetdefaultsArg α)) (kwds : List (String × α)) (k : String)
    (v : α) (h : alookup d k = some v) :
    alookup (setdefaults d args kwds) k = some v := by
  unfold setdefaults
  exact alookup_foldl_pySetdefault kwds _ k v (alookup_foldl_args args d k v h)

/-- C10 witness: on the dict of the test suite, setdefaults with a
mapping argument, a pairs argument and keyword arguments rebinding the
existing key leaves its value untouched. -/
theorem setdefaults_preserves_existing_witness :
    alookup (setdefaults [("a.two", 2), ("four", 4)]
      [.mapping [("a.two", 99), ("a.five", 5)], .pairs [("four", 6)]]
      [("a.two", 7)]) "a.two" = some 2 :=
  setdefaults_preserves_existing [("a.two", 2), ("four", 4)]
    [.mapping [("a.two", 99), ("a.five", 5)], .pairs [("four", 6)]]
    [("a.two", 7)] "a.two" 2 (by decide)

/-! Lemmas about the interpolation scanner. -/

theorem interpStep_open (r : List Char → Except InterpError (List Char))
    (rest : List Char) :
    interpStep r none ('$' :: '{' :: rest) = interpStep r (some []) rest := by
  simp [interpStep]

theorem interpStep_scan (r : List Char → Except InterpError (List Char)) :
    ∀ (nm : List Char), '}' ∉ nm → ∀ (acc cs : List Char),
      interpStep r (some acc) (nm ++ '}' :: cs) =
        interpStep r (some (nm.reverse ++ acc)) ('}' :: cs) := by
  intro nm
  induction nm with
  | nil => intro _ acc cs; simp
  | cons c nmt ih =>
    intro h acc cs
    have hc : ¬ c = '}' := fun he => h (by rw [he]; exact List.mem_cons_self _ _)
    have hrest : '}' ∉ nmt := fun hm => h (List.mem_cons_of_mem c hm)
    have hstep : interpStep r (some acc) ((c :: nmt) ++ '}' :: cs) =
        interpStep r (some (c :: acc)) (nmt ++ '}' :: cs) := by
      rw [List.cons_append]
      conv_lhs => rw [interpStep]
      rw [if_neg hc]
    rw [hstep, ih hrest (c :: acc) cs]
    congr 2
    simp

theorem interpStep_resolve_at_close
    (r : List Char → Except InterpError (List Char)) (acc cs : List Char)
    (h : acc ≠ []) :
    interpStep r (some acc) ('}' :: cs) =
      (r acc.reverse) >>= (fun v =>
        (interpStep r none cs) >>= (fun tail => Except.ok (v ++ tail))) := by
  have hempty : ¬ acc.isEmpty = true := by
    cases acc with
    | nil => exact absurd rfl h
    | cons a as => exact Bool.false_ne_true
  conv_lhs => rw [interpStep]
  rw [if_pos rfl, if_neg hempty]

theorem interpStep_no_dollar (r : List Char → Except InterpError (List Char)) :
    ∀ (cs : List Char), '$' ∉ cs → interpStep r none cs = .ok cs := by
  intro cs
  induction cs with
  | nil => intro _; rfl
  | cons c rest ih =>
    intro h
    have hc : ¬ c = '$' := fun he => h (by rw [he]; exact List.mem_cons_self _ _)
    have hr : '$' ∉ rest := fun hm => h (List.mem_cons_of_mem c hm)
    rw [interpStep.eq_def]
    simp only []
    rw [if_neg hc, ih hr]
    rfl

theorem splitOnChar_no_sep (sep : Char) : ∀ (cs : List Char), sep ∉ cs →
    splitOnChar sep cs = [cs] := by
  intro cs
  induction cs with
  | nil => intro _; rfl
  | cons c rest ih =>
    intro h
    have hc : ¬ c = sep := fun he => h (by rw [he]; exact List.mem_cons_self _ _)
    have hr : sep ∉ rest := fun hm => h (List.mem_cons_of_mem c hm)
    simp [splitOnChar, hc, ih hr]

theorem resolveName_single (gR : String → String → Option String)
    (recurse : String → List Char → Except InterpError (List Char))
    (sect : String) (map : List (String × String)) (name : String)
    (h3 : ':' ∉ name.data) :
    resolveName gR recurse sect map name.data =
      (match alookup map name with
       | none => Except.error (.missingOption name)
       | some v => if '$' ∈ v.data then recurse sect v.data
                   else Except.ok v.data) := by
  unfold resolveName
  rw [splitOnChar_no_sep ':' name.data h3]

theorem interpDepth_missing_name (gR : String → String → Option String)
    (iR : String → List (String × String)) (fuel : Nat) (sect : String)
    (map : List (String × String)) (name : String)
    (h1 : name.data ≠ []) (h2 : '}' ∉ name.data) (h3 : ':' ∉ name.data)
    (hmap : alookup map name = none) :
    interpDepth gR iR (fuel + 1) sect map ("$\x7b" ++ name ++ "\x7d").data =
      .error (.missingOption name) := by
  have hd : ("$\x7b" ++ name ++ "\x7d").data = '$' :: '{' :: (name.data ++ '}' :: []) := by
    simp [String.data_append]
  simp only [interpDepth]
  rw [hd, interpStep_open, interpStep_scan _ name.data h2 [] [],
    List.append_nil, interpStep_resolve_at_close _ _ _ (by
      intro hrev
      exact h1 (List.reverse_eq_nil_iff.mp hrev)),
    List.reverse_reverse, resolveName_single gR _ sect map name h3, hmap]
  rfl

theorem interpDepth_found_name (gR : String → String → Option String)
    (iR : String → List (String × String)) (fuel : Nat) (sect : String)
    (map : List (String × String)) (name v : String)
    (h1 : name.data ≠ []) (h2 : '}' ∉ name.data) (h3 : ':' ∉ name.data)
    (hmap : alookup map name = some v) (hv : '$' ∉ v.data) :
    interpDepth gR iR (fuel + 1) sect map ("$\x7b" ++ name ++ "\x7d").data =
      .ok v.data := by
  have hd : ("$\x7b" ++ name ++ "\x7d").data = '$' :: '{' :: (name.data ++ '}' :: []) := by
    simp [String.data_append]
  simp only [interpDepth]
  rw [hd, interpStep_open, interpStep_scan _ name.data h2 [] [],
    List.append_nil, interpStep_resolve_at_close _ _ _ (by
      intro hrev
      exact h1 (List.reverse_eq_nil_iff.mp hrev)),
    List.reverse_reverse, resolveName_single gR _ sect map name h3, hmap]
  show ((if '$' ∈ v.data then _ else Except.ok v.data) >>= _) = _
  rw [if_neg hv]
  show Except.ok (v.data ++ []) = Except.ok v.data
  rw [List.append_nil]

/-- C4 counterexample: reading a value holding an unresolved placeholder
token for a name absent from the variable namespace raises
InterpolationMissingOptionError instead of returning the token as literal
text. -/
theorem unresolved_placeholder_counterexample :
    beforeGet noGet noItems [] none "one" "${NOPE}" =
      .error (.missingOption "NOPE") ∧
    beforeGet noGet noItems [] none "one" "${NOPE}" ≠
      .ok (.sc (.s "${NOPE}")) :=
  ⟨by decide, by decide⟩

/-- C4 amended: reading a value that is an unresolved placeholder token
for a name other than HERE that is absent from the environment snapshot
raises InterpolationMissingOptionError (the read fails); only the HERE
sentinel is deliberately bound so that it resolves to literal text. -/
theorem unresolved_placeholder_amended (gR : String → String → Option String)
    (iR : String → List (String × String)) (env : List (String × String))
    (fname : Option String) (sect : String) (name : String)
    (h1 : name ≠ "") (h2 : '}' ∉ name.data) (h3 : ':' ∉ name.data)
    (hHERE : name ≠ "HERE") (henv : alookup env name = none) :
    beforeGet gR iR env fname sect ("$\x7b" ++ name ++ "\x7d") =
      .error (.missingOption name) := by
  simp only [beforeGet]
  have h1d : name.data ≠ [] := by
    intro hd
    apply h1
    have hmk : name = (⟨name.data⟩ : String) := rfl
    rw [hmk, hd]
  have hmap : alookup (setItem env "HERE"
      (match fname with
       | some f => dirname f
       | none => "$${HERE}")) name = none := by
    rw [alookup_setItem_ne env _ (Ne.symm hHERE)]
    exact henv
  rw [show (10 : Nat) = 9 + 1 from rfl,
    interpDepth_missing_name gR iR 9 sect _ name h1d h2 h3 hmap]
  rfl

/-- C4 amended witness at the concrete name NOPE. -/
theorem unresolved_placeholder_amended_witness :
    beforeGet noGet noItems [] none "one" ("$\x7b" ++ "NOPE" ++ "\x7d") =
      .error (.missingOption "NOPE") :=
  unresolved_placeholder_amended noGet noItems [] none "one" "NOPE"
    (by decide) (by decide) (by decide) (by decide) (by decide)

/-- C5: the HERE sentinel.  Reading a value that is exactly the HERE
placeholder from a stream-loaded document yields the literal unresolved
token, reading it from a document loaded from the path /tmp/x/y.conf
yields /tmp/x, and in general the namespace always binds HERE to the
directory portion of the path, which a read of the placeholder returns
whenever that text is dollar-free. -/
theorem here_sentinel (env : List (String × String)) (sect path : String)
    (hd : '$' ∉ (dirname path).data) :
    beforeGet noGet noItems [] none "one" "${HERE}" =
      .ok (.sc (.s "${HERE}")) ∧
    beforeGet noGet noItems [] (some "/tmp/x/y.conf") "one" "${HERE}" =
      .ok (.sc (.s "/tmp/x")) ∧
    interpDepth noGet noItems 10 sect (setItem env "HERE" (dirname path))
      "${HERE}".data = .ok (dirname path).data := by
  refine ⟨by decide, by decide, ?_⟩
  have hmap : alookup (setItem env "HERE" (dirname path)) "HERE" =
      some (dirname path) := alookup_setItem_self env "HERE" (dirname path)
  rw [show ("${HERE}" : String) = "$\x7b" ++ "HERE" ++ "\x7d" from rfl,
    show (10 : Nat) = 9 + 1 from rfl]
  exact interpDepth_found_name noGet noItems 9 sect _ "HERE" (dirname path)
    (by decide) (by decide) (by decide) hmap hd

/-- C5 witness at the concrete path of the claim. -/
theorem here_sentinel_witness :
    interpDepth noGet noItems 10 "one"
      (setItem [] "HERE" (dirname "/tmp/x/y.conf")) "${HERE}".data =
      .ok (dirname "/tmp/x/y.conf").data :=
  (here_sentinel [] "one" "/tmp/x/y.conf" (by decide)).2.2

/-- C7 counterexample: the list branch filters on the decoded value, so a
line consisting of two quote characters decodes to the empty string and
is dropped, where the claim predicts a kept empty-string element for
every non-empty trimmed line. -/
theorem list_decode_counterexample :
    beforeGet noGet noItems [] none "one" "a\n\"\"" = .ok (.ls [.s "a"]) ∧
    (Value.ls [.s "a"]) ≠ (Value.ls [.s "a", .s ""]) :=
  ⟨by decide, by decide⟩

/-- C7 amended: a dollar-free raw value spanning multiple lines decodes
to the ordered list obtained by splitting on newlines, decoding each line
by the scalar rules, and keeping exactly the lines whose decoded scalar
is not the empty string (whitespace-only lines and the quoted empty
string are dropped); in particular the raw lines 1, two, 3 decode to the
mixed list of the claim. -/
theorem list_decode_amended (gR : String → String → Option String)
    (iR : String → List (String × String)) (env : List (String × String))
    (fname : Option String) (sect : String) (raw : String)
    (hnd : '$' ∉ raw.data) (hnl : '\n' ∈ raw.data) :
    beforeGet gR iR env fname sect raw =
      .ok (.ls (((splitOnChar '\n' raw.data).map unserialize).filter
        (fun e => decide (e ≠ Scalar.s "")))) ∧
    beforeGet noGet noItems [] none "one" "1\ntwo\n3" =
      .ok (.ls [.i 1, .s "two", .i 3]) := by
  constructor
  · unfold beforeGet
    rw [show (10 : Nat) = 9 + 1 from rfl]
    simp only [interpDepth]
    rw [interpStep_no_dollar _ raw.data hnd]
    simp [Except.map, decodeRawL, hnl, decodeLines]
  · decide

/-- C7 amended witness at a concrete multi-line raw value. -/
theorem list_decode_amended_witness :
    beforeGet noGet noItems [] none "one" "x\ny" =
      .ok (.ls (((splitOnChar '\n' "x\ny".data).map unserialize).filter
        (fun e => decide (e ≠ Scalar.s "")))) :=
  (list_decode_amended noGet noItems [] none "one" "x\ny" (by decide)
    (by decide)).1

/-- C8 counterexample: the multi-line branch runs before the quoted
string rule, so a quoted raw value with an embedded newline is split into
a list instead of having its quotes stripped. -/
theorem quoted_string_counterexample :
    decodeRawS "\"a\nb\"" = .ls [.s "\"a", .s "b\""] ∧
    decodeRawS "\"a\nb\"" ≠ .sc (.s "a\nb") :=
  ⟨by decide, by decide⟩

/-- C8 amended: for every newline-free raw text whose stripped form
starts and ends with a double quote, has length at least two and does not
match the integer rule, decoding strips exactly one leading and one
trailing quote character and returns the inner text verbatim as a
string. -/
theorem quoted_string_amended (s : String)
    (hq1 : (pyStrip s.data).head? = some '"')
    (hq2 : (pyStrip s.data).getLast? = some '"')
    (_hlen : 2 ≤ (pyStrip s.data).length)
    (hnum : matchesNumber (pyStrip s.data) = false)
    (hnl : '\n' ∉ s.data) :
    decodeRawS s = .sc (.s ⟨((pyStrip s.data).drop 1).dropLast⟩) := by
  unfold decodeRawS decodeRawL
  rw [if_neg hnl]
  unfold unserialize unserializeCore
  simp [hnum, hq1, hq2]

/-- C8 amended witness on the raw value of the claim. -/
theorem quoted_string_amended_witness :
    decodeRawS "\"o=k\"" = .sc (.s "o=k") := by
  rw [quoted_string_amended "\"o=k\"" (by decide) (by decide) (by decide)
    (by decide) (by decide)]
  decide

/-! Facts about the decimal printer and the int parser, for the
round-trip claim. -/

theorem isDigit_digitChar {d : Nat} (h : d < 10) :
    (digitChar d).isDigit = true := by
  interval_cases d <;> decide

theorem toNat_digitChar {d : Nat} (h : d < 10) :
    (digitChar d).toNat = 48 + d := by
  interval_cases d <;> decide

theorem not_char_of_isDigit {c : Char} (h : c.isDigit = true) :
    isWsChar c = false ∧ c ≠ '\n' ∧ c ≠ '-' ∧ c ≠ '+' ∧ c ≠ '"' ∧
      c ≠ '$' := by
  refine ⟨?_, ?_, ?_, ?_, ?_, ?_⟩
  · unfold isWsChar
    have h1 : ¬ c = ' ' := fun he => by rw [he] at h; exact absurd h (by decide)
    have h2 : ¬ c = '\t' := fun he => by rw [he] at h; exact absurd h (by decide)
    have h3 : ¬ c = '\n' := fun he => by rw [he] at h; exact absurd h (by decide)
    have h4 : ¬ c = '\r' := fun he => by rw [he] at h; exact absurd h (by decide)
    have h5 : ¬ c = '\x0b' := fun he => by
      rw [he] at h; exact absurd h (by decide)
    have h6 : ¬ c = '\x0c' := fun he => by
      rw [he] at h; exact absurd h (by decide)
    simp [h1, h2, h3, h4, h5, h6]
  · exact fun he => by rw [he] at h; exact absurd h (by decide)
  · exact fun he => by rw [he] at h; exact absurd h (by decide)
  · exact fun he => by rw [he] at h; exact absurd h (by decide)
  · exact fun he => by rw [he] at h; exact absurd h (by decide)
  · exact fun he => by rw [he] at h; exact absurd h (by decide)

theorem natToDecAux_all_digit :
    ∀ (fuel n : Nat), n < fuel → (natToDecAux fuel n).all Char.isDigit = true := by
  intro fuel
  induction fuel with
  | zero => intro n h; exact absurd h (Nat.not_lt_zero n)
  | succ f ih =>
    intro n h
    unfold natToDecAux
    by_cases h10 : n < 10
    · simp [h10, isDigit_digitChar h10]
    · rw [if_neg h10]
      have hn0 : 0 < n := Nat.lt_of_lt_of_le (by decide)
        (Nat.le_of_not_lt h10)
      have hdiv : n / 10 < f := by
        have hlt : n / 10 < n := Nat.div_lt_self hn0 (by decide)
        omega
      rw [List.all_append]
      simp [ih (n / 10) hdiv, isDigit_digitChar (Nat.mod_lt n (by decide))]

theorem natToDecAux_ne_nil :
    ∀ (fuel n : Nat), n < fuel → natToDecAux fuel n ≠ [] := by
  intro fuel
  induction fuel with
  | zero => intro n h; exact absurd h (Nat.not_lt_zero n)
  | succ f ih =>
    intro n _
    unfold natToDecAux
    by_cases h10 : n < 10
    · simp [h10]
    · rw [if_neg h10]
      simp

theorem natToDecAux_foldl :
    ∀ (fuel n : Nat), n < fuel →
      (natToDecAux fuel n).foldl (fun a c => 10 * a + (c.toNat - 48)) 0 = n := by
  intro fuel
  induction fuel with
  | zero => intro n h; exact absurd h (Nat.not_lt_zero n)
  | succ f ih =>
    intro n h
    unfold natToDecAux
    by_cases h10 : n < 10
    · simp [h10, List.foldl, toNat_digitChar h10]
    · rw [if_neg h10]
      have hn0 : 0 < n := Nat.lt_of_lt_of_le (by decide)
        (Nat.le_of_not_lt h10)
      have hdiv : n / 10 < f := by
        have hlt : n / 10 < n := Nat.div_lt_self hn0 (by decide)
        omega
      rw [List.foldl_append, ih (n / 10) hdiv]
      simp only [List.foldl]
      rw [toNat_digitChar (Nat.mod_lt n (by decide))]
      omega

theorem digitsVal_natToDec (n : Nat) : digitsVal (natToDec n) = some n := by
  unfold digitsVal natToDec
  have hlt : n < n + 1 := Nat.lt_succ_self n
  rw [if_pos ⟨natToDecAux_ne_nil (n + 1) n hlt, natToDecAux_all_digit (n + 1) n hlt⟩,
    natToDecAux_foldl (n + 1) n hlt]

theorem natToDec_head_digit (n : Nat) :
    ∃ c t, natToDec n = c :: t ∧ c.isDigit = true := by
  have hlt : n < n + 1 := Nat.lt_succ_self n
  cases hc : natToDec n with
  | nil => exact absurd hc (natToDecAux_ne_nil (n + 1) n hlt)
  | cons c t =>
    refine ⟨c, t, rfl, ?_⟩
    have hall := natToDecAux_all_digit (n + 1) n hlt
    unfold natToDec at hc
    rw [hc, List.all_cons] at hall
    exact (Bool.and_eq_true_iff.mp hall).1

theorem mem_natToDec_digit {n : Nat} {c : Char} (h : c ∈ natToDec n) :
    c.isDigit = true := by
  have hall := natToDecAux_all_digit (n + 1) n (Nat.lt_succ_self n)
  rw [List.all_eq_true] at hall
  exact hall c h

theorem mem_intToDec {i : Int} {c : Char} (h : c ∈ intToDec i) :
    c.isDigit = true ∨ c = '-' := by
  unfold intToDec at h
  by_cases hneg : i < 0
  · rw [if_pos hneg] at h
    cases h with
    | head => exact Or.inr rfl
    | tail _ hm => exact Or.inl (mem_natToDec_digit hm)
  · rw [if_neg hneg] at h
    exact Or.inl (mem_natToDec_digit h)

theorem matchesNumber_intToDec (i : Int) :
    matchesNumber (intToDec i) = true := by
  unfold intToDec
  obtain ⟨c, t, hct, hdig⟩ := natToDec_head_digit i.natAbs
  by_cases hneg : i < 0
  · rw [if_pos hneg, hct]
    unfold matchesNumber
    simp [hdig]
  · rw [if_neg hneg, hct]
    unfold matchesNumber
    have hnd := not_char_of_isDigit hdig
    simp [hnd.2.2.1, hdig]

theorem pyIntParse_cons (c : Char) (rest : List Char) :
    pyIntParse (c :: rest) =
      if c = '-' then (digitsVal rest).map (fun n => -(n : Int))
      else if c = '+' then (digitsVal rest).map (fun n => (n : Int))
      else (digitsVal (c :: rest)).map (fun n => (n : Int)) := rfl

theorem pyIntParse_intToDec (i : Int) : pyIntParse (intToDec i) = some i := by
  obtain ⟨c, t, hct, hdig⟩ := natToDec_head_digit i.natAbs
  have hnd := not_char_of_isDigit hdig
  unfold intToDec
  by_cases hneg : i < 0
  · rw [if_pos hneg, pyIntParse_cons, if_pos rfl, digitsVal_natToDec]
    have habs : ((i.natAbs : Int)) = -i := by omega
    simp [habs]
  · rw [if_neg hneg, hct, pyIntParse_cons, if_neg hnd.2.2.1,
      if_neg hnd.2.2.2.1, ← hct, digitsVal_natToDec]
    have habs : ((i.natAbs : Int)) = i := by omega
    simp [habs]

/-! Facts about stripping, for the round-trip claim. -/

theorem stripLeft_cons_of_not_ws {c : Char} (t : List Char)
    (h : isWsChar c = false) : stripLeft (c :: t) = c :: t := by
  simp [stripLeft, List.dropWhile, h]

theorem stripLeft_eq_self_of_no_ws {cs : List Char}
    (h : ∀ c ∈ cs, isWsChar c = false) : stripLeft cs = cs := by
  cases cs with
  | nil => rfl
  | cons c t => exact stripLeft_cons_of_not_ws t (h c (List.mem_cons_self c t))

theorem stripRight_eq_self_of_no_ws {cs : List Char}
    (h : ∀ c ∈ cs, isWsChar c = false) : stripRight cs = cs := by
  unfold stripRight
  rw [stripLeft_eq_self_of_no_ws (fun c hm => h c (List.mem_reverse.mp hm)),
    List.reverse_reverse]

theorem pyStrip_eq_self_of_no_ws {cs : List Char}
    (h : ∀ c ∈ cs, isWsChar c = false) : pyStrip cs = cs := by
  unfold pyStrip
  rw [stripRight_eq_self_of_no_ws h, stripLeft_eq_self_of_no_ws h]

theorem pyStrip_intToDec (i : Int) : pyStrip (intToDec i) = intToDec i :=
  pyStrip_eq_self_of_no_ws (fun c hm => by
    cases mem_intToDec hm with
    | inl hd => exact (not_char_of_isDigit hd).1
    | inr hdash => rw [hdash]; decide)

theorem nl_not_mem_intToDec (i : Int) : '\n' ∉ intToDec i := by
  intro hm
  cases mem_intToDec hm with
  | inl hd => exact absurd hd (by decide)
  | inr hdash => exact absurd hdash (by decide)

theorem length_stripLeft_le (cs : List Char) :
    (stripLeft cs).length ≤ cs.length := by
  unfold stripLeft
  induction cs with
  | nil => simp
  | cons c t ih =>
    by_cases hc : isWsChar c = true
    · simp only [List.dropWhile, hc]
      exact Nat.le_trans ih (Nat.le_succ _)
    · have hf : isWsChar c = false := by simpa using hc
      simp only [List.dropWhile, hf]
      simp

theorem stripLeft_eq_self_of_length {cs : List Char}
    (h : (stripLeft cs).length = cs.length) : stripLeft cs = cs := by
  cases cs with
  | nil => rfl
  | cons c t =>
    by_cases hc : isWsChar c = true
    · exfalso
      unfold stripLeft at h
      simp only [List.dropWhile, hc] at h
      have := length_stripLeft_le t
      unfold stripLeft at this
      simp at h
      omega
    · exact stripLeft_cons_of_not_ws t (by simpa using hc)

theorem pyStrip_eq_self_parts {cs : List Char} (h : pyStrip cs = cs) :
    stripLeft cs = cs ∧ stripRight cs = cs := by
  have hlen1 : (stripRight cs).length ≤ cs.length := by
    unfold stripRight
    rw [List.length_reverse]
    calc (stripLeft cs.reverse).length ≤ cs.reverse.length :=
          length_stripLeft_le cs.reverse
      _ = cs.length := List.length_reverse cs
  have hlen2 : (pyStrip cs).length ≤ (stripRight cs).length := by
    unfold pyStrip
    exact length_stripLeft_le (stripRight cs)
  rw [h] at hlen2
  have hr : stripRight cs = cs := by
    unfold stripRight
    have hlenr : (stripLeft cs.reverse).length = cs.reverse.length := by
      unfold stripRight at hlen1 hlen2
      rw [List.length_reverse] at hlen1 hlen2
      rw [List.length_reverse]
      omega
    rw [stripLeft_eq_self_of_length hlenr, List.reverse_reverse]
  refine ⟨?_, hr⟩
  unfold pyStrip at h
  rw [hr] at h
  exact h

theorem head_not_ws_of_stripLeft {c : Char} {t : List Char}
    (h : stripLeft (c :: t) = c :: t) : isWsChar c = false := by
  by_cases hc : isWsChar c = true
  · exfalso
    unfold stripLeft at h
    simp only [List.dropWhile, hc] at h
    have hle := length_stripLeft_le t
    unfold stripLeft at hle
    have : (List.dropWhile isWsChar t).length = t.length + 1 := by
      rw [h]; simp
    omega
  · exact (by simpa using hc)

theorem stripLeft_ws_append {w : List Char}
    (hw : ∀ c ∈ w, isWsChar c = true) (x : List Char) :
    stripLeft (w ++ x) = stripLeft x := by
  induction w with
  | nil => rfl
  | cons c t ih =>
    rw [List.cons_append]
    unfold stripLeft
    simp only [List.dropWhile, hw c (List.mem_cons_self c t)]
    exact ih (fun c2 hm => hw c2 (List.mem_cons_of_mem c hm))

theorem stripRight_append_right {b : List Char} (hb : b ≠ [])
    (hs : stripRight b = b) (a : List Char) :
    stripRight (a ++ b) = a ++ b := by
  unfold stripRight
  rw [List.reverse_append]
  have hbr : ∃ c t, b.reverse = c :: t := by
    cases hrev : b.reverse with
    | nil => exact absurd (by simpa using congrArg List.reverse hrev) hb
    | cons c t => exact ⟨c, t, rfl⟩
  obtain ⟨c, t, hct⟩ := hbr
  have hhead : isWsChar c = false := by
    unfold stripRight at hs
    have hsl : stripLeft b.reverse = b.reverse := by
      have := congrArg List.reverse hs
      rwa [List.reverse_reverse] at this
    rw [hct] at hsl
    exact head_not_ws_of_stripLeft hsl
  rw [hct, List.cons_append, stripLeft_cons_of_not_ws _ hhead,
    ← List.cons_append, ← hct, List.reverse_append, List.reverse_reverse,
    List.reverse_reverse]

theorem pyStrip_ws_append {w x : List Char}
    (hw : ∀ c ∈ w, isWsChar c = true) (hx : x ≠ [])
    (hxs : pyStrip x = x) : pyStrip (w ++ x) = x := by
  obtain ⟨hxl, hxr⟩ := pyStrip_eq_self_parts hxs
  unfold pyStrip
  rw [stripRight_append_right hx hxr, stripLeft_ws_append hw, hxl]

/-- A scalar that survives the list encode and decode round trip as a
list element: integers and booleans always do, strings need to be
unambiguous and non-empty (empty decoded strings are filtered out). -/
def GoodElem : Scalar → Prop
  | .i _ => True
  | .b _ => True
  | .s t => NoAmbigString t ∧ t ≠ ""

instance : (e : Scalar) → Decidable (GoodElem e)
  | .i _ => .isTrue trivial
  | .b _ => .isTrue trivial
  | .s t => inferInstanceAs (Decidable (NoAmbigString t ∧ t ≠ ""))

/-- A value that survives the encode and decode round trip: integer or
boolean scalars, unambiguous strings, and lists of at least two good
elements. -/
def GoodValue : Value → Prop
  | .sc (.i _) => True
  | .sc (.b _) => True
  | .sc (.s t) => NoAmbigString t
  | .ls items => 2 ≤ items.length ∧ ∀ e ∈ items, GoodElem e

instance : (v : Value) → Decidable (GoodValue v)
  | .sc (.i _) => .isTrue trivial
  | .sc (.b _) => .isTrue trivial
  | .sc (.s t) => inferInstanceAs (Decidable (NoAmbigString t))
  | .ls items =>
    inferInstanceAs (Decidable (2 ≤ items.length ∧ ∀ e ∈ items, GoodElem e))

theorem unserializeCore_intToDec (i : Int) :
    unserializeCore (intToDec i) = .i i := by
  unfold unserializeCore
  rw [if_pos (matchesNumber_intToDec i), pyIntParse_intToDec i]

theorem unserialize_good_scalar {e : Scalar} (h : GoodElem e) :
    unserialize (pyStr e) = e := by
  cases e with
  | i n =>
    show unserializeCore (pyStrip (intToDec n)) = .i n
    rw [pyStrip_intToDec, unserializeCore_intToDec]
  | b v => cases v <;> decide
  | s t =>
    show unserializeCore (pyStrip t.data) = .s t
    rw [h.1.1, unserializeCore_noAmbig h.1]

/-- The element facts used by the list round trip. -/
theorem pyStr_facts {e : Scalar} (h : GoodElem e) :
    pyStr e ≠ [] ∧ pyStrip (pyStr e) = pyStr e ∧ '\n' ∉ pyStr e ∧
      e ≠ .s "" := by
  cases e with
  | i n =>
    refine ⟨?_, pyStrip_intToDec n, nl_not_mem_intToDec n, by simp⟩
    show intToDec n ≠ []
    unfold intToDec
    by_cases hneg : (n : Int) < 0
    · rw [if_pos hneg]; simp
    · rw [if_neg hneg]
      exact natToDecAux_ne_nil _ _ (Nat.lt_succ_self _)
  | b v => cases v <;> exact ⟨by decide, by decide, by decide, by simp⟩
  | s t =>
    have hne : t.data ≠ [] := by
      intro hd
      apply h.2
      have hmk : t = (⟨t.data⟩ : String) := rfl
      rw [hmk, hd]
    refine ⟨hne, h.1.1, h.1.2.1, ?_⟩
    simp only [ne_eq, Scalar.s.injEq]
    exact h.2

theorem unserialize_indent {e : Scalar} (h : GoodElem e) :
    unserialize ("    ".data ++ pyStr e) = e := by
  obtain ⟨hne, hstrip, _, _⟩ := pyStr_facts h
  show unserializeCore (pyStrip ("    ".data ++ pyStr e)) = e
  rw [pyStrip_ws_append (by decide) hne hstrip]
  have := unserialize_good_scalar h
  unfold unserialize at this
  rwa [hstrip] at this

/-! Facts about the newline join and split, for the list round trip. -/

theorem joinNl_ne_nil : ∀ (parts : List (List Char)), parts ≠ [] →
    (∀ p ∈ parts, p ≠ []) → joinNl parts ≠ [] := by
  intro parts hne hp
  match parts with
  | [x] => exact hp x (List.mem_cons_self x [])
  | x :: y :: r =>
    show x ++ '\n' :: joinNl (y :: r) ≠ []
    simp

theorem splitOnChar_append_sep (sep : Char) :
    ∀ (x : List Char), sep ∉ x → ∀ (r : List Char),
      splitOnChar sep (x ++ sep :: r) = x :: splitOnChar sep r := by
  intro x
  induction x with
  | nil =>
    intro _ r
    show splitOnChar sep (sep :: r) = [] :: splitOnChar sep r
    simp [splitOnChar]
  | cons c t ih =>
    intro h r
    have hc : ¬ c = sep := fun he => h (by rw [he]; exact List.mem_cons_self _ _)
    have ht : sep ∉ t := fun hm => h (List.mem_cons_of_mem c hm)
    rw [List.cons_append]
    simp [splitOnChar, hc, ih ht r]

theorem splitOnChar_joinNl : ∀ (parts : List (List Char)), parts ≠ [] →
    (∀ p ∈ parts, '\n' ∉ p) → splitOnChar '\n' (joinNl parts) = parts := by
  intro parts
  induction parts with
  | nil => intro h _; exact absurd rfl h
  | cons x rest ih =>
    intro _ hp
    match rest with
    | [] =>
      exact splitOnChar_no_sep '\n' x (hp x (List.mem_cons_self x []))
    | y :: r =>
      show splitOnChar '\n' (x ++ '\n' :: joinNl (y :: r)) = x :: y :: r
      rw [splitOnChar_append_sep '\n' x (hp x (List.mem_cons_self x _)),
        ih (by simp) (fun p hm => hp p (List.mem_cons_of_mem x hm))]

theorem stripRight_joinNl : ∀ (parts : List (List Char)), parts ≠ [] →
    (∀ p ∈ parts, p ≠ [] ∧ stripRight p = p) →
    stripRight (joinNl parts) = joinNl parts := by
  intro parts
  induction parts with
  | nil => intro h _; exact absurd rfl h
  | cons x rest ih =>
    intro _ hp
    match rest with
    | [] => exact (hp x (List.mem_cons_self x [])).2
    | y :: r =>
      show stripRight (x ++ '\n' :: joinNl (y :: r)) = x ++ '\n' :: joinNl (y :: r)
      have hJ : stripRight (joinNl (y :: r)) = joinNl (y :: r) :=
        ih (by simp) (fun p hm => hp p (List.mem_cons_of_mem x hm))
      have hJne : joinNl (y :: r) ≠ [] :=
        joinNl_ne_nil (y :: r) (by simp)
          (fun p hm => (hp p (List.mem_cons_of_mem x hm)).1)
      have hcons : stripRight ('\n' :: joinNl (y :: r)) =
          '\n' :: joinNl (y :: r) := by
        have := stripRight_append_right hJne hJ ['\n']
        simpa using this
      have hcne : ('\n' :: joinNl (y :: r) : List Char) ≠ [] := by simp
      exact stripRight_append_right hcne hcons x

theorem map_unserialize_indented : ∀ (l : List Scalar),
    (∀ e ∈ l, GoodElem e) →
    ((l.map (fun e => "    ".data ++ pyStr e)).map unserialize) = l := by
  intro l
  induction l with
  | nil => intro _; rfl
  | cons e rest ih =>
    intro h
    simp only [List.map_cons]
    rw [unserialize_indent (h e (List.mem_cons_self e rest)),
      ih (fun e2 hm => h e2 (List.mem_cons_of_mem e hm))]

theorem filter_ne_empty_string : ∀ (l : List Scalar),
    (∀ e ∈ l, e ≠ .s "") →
    l.filter (fun e => decide (e ≠ Scalar.s "")) = l := by
  intro l
  induction l with
  | nil => intro _; rfl
  | cons e rest ih =>
    intro h
    rw [List.filter_cons_of_pos (by
      simpa using h e (List.mem_cons_self e rest)),
      ih (fun e2 hm => h e2 (List.mem_cons_of_mem e hm))]

/-- C1 counterexample: a one-element list of scalars does not survive the
round trip; it re-decodes as the bare scalar because its encoding has no
newline. -/
theorem round_trip_counterexample :
    decodeRawS (serializeS (.ls [.i 1])) = .sc (.i 1) ∧
    decodeRawS (serializeS (.ls [.i 1])) ≠ .ls [.i 1] :=
  ⟨by decide, by decide⟩

/-- C1 amended: encode then decode is the identity on Integers, Booleans,
Strings without ambiguous characters, and ListOfLines of at least two
good scalars (singleton and empty lists re-decode as scalars, so they
are excluded; list elements must be non-empty unambiguous scalars since
empty decoded lines are filtered out). -/
theorem round_trip_amended (v : Value) (h : GoodValue v) :
    decodeRawS (serializeS v) = v := by
  cases v with
  | sc x =>
    cases x with
    | i n =>
      show decodeRawL (intToDec n) = .sc (.i n)
      unfold decodeRawL
      rw [if_neg (nl_not_mem_intToDec n)]
      show Value.sc (unserializeCore (pyStrip (intToDec n))) = _
      rw [pyStrip_intToDec, unserializeCore_intToDec]
    | b bv => cases bv <;> decide
    | s t =>
      show decodeRawL t.data = .sc (.s t)
      unfold decodeRawL
      rw [if_neg h.2.1]
      show Value.sc (unserializeCore (pyStrip t.data)) = _
      rw [h.1, unserializeCore_noAmbig h]
  | ls items =>
    obtain ⟨hlen, helems⟩ := h
    match items, hlen with
    | e0 :: e1 :: rest, _ =>
      have hgood0 : GoodElem e0 := helems e0 (List.mem_cons_self _ _)
      have hgoodTail : ∀ e ∈ e1 :: rest, GoodElem e :=
        fun e hm => helems e (List.mem_cons_of_mem e0 hm)
      obtain ⟨hne0, hstrip0, hnl0, hnemp0⟩ := pyStr_facts hgood0
      -- facts about every indented part
      have hpartFacts : ∀ p ∈ (e1 :: rest).map
          (fun e => "    ".data ++ pyStr e), p ≠ [] ∧ stripRight p = p ∧
          '\n' ∉ p := by
        intro p hm
        obtain ⟨e, hmem, hpe⟩ := List.mem_map.mp hm
        obtain ⟨hne, hstrip, hnl, _⟩ := pyStr_facts (hgoodTail e hmem)
        subst hpe
        refine ⟨by simp, ?_, ?_⟩
        · exact stripRight_append_right hne (pyStrip_eq_self_parts hstrip).2 _
        · intro hmem2
          cases List.mem_append.mp hmem2 with
          | inl hsp => exact absurd hsp (by decide)
          | inr hx => exact hnl hx
      set parts := (e1 :: rest).map (fun e => "    ".data ++ pyStr e) with hparts
      have hpartsNe : parts ≠ [] := by simp [hparts]
      have hJne : joinNl parts ≠ [] :=
        joinNl_ne_nil parts hpartsNe (fun p hm => (hpartFacts p hm).1)
      have hJstrip : stripRight (joinNl parts) = joinNl parts :=
        stripRight_joinNl parts hpartsNe
          (fun p hm => ⟨(hpartFacts p hm).1, (hpartFacts p hm).2.1⟩)
      -- the serialized text
      have hser : serializeL (.ls (e0 :: e1 :: rest)) =
          pyStr e0 ++ '\n' :: joinNl parts := by
        show pyStrip (joinNl (("    ".data ++ pyStr e0) :: parts)) = _
        have hjoin : joinNl (("    ".data ++ pyStr e0) :: parts) =
            ("    ".data ++ pyStr e0) ++ '\n' :: joinNl parts := by
          cases hp2 : parts with
          | nil => exact absurd hp2 hpartsNe
          | cons p ps => rfl
        rw [hjoin]
        unfold pyStrip
        have hb : ('\n' :: joinNl parts : List Char) ≠ [] := by simp
        have hbs : stripRight ('\n' :: joinNl parts) = '\n' :: joinNl parts := by
          have := stripRight_append_right hJne hJstrip ['\n']
          simpa using this
        have hb2 : (pyStr e0 ++ '\n' :: joinNl parts : List Char) ≠ [] := by
          simp
        have hb2s : stripRight (pyStr e0 ++ '\n' :: joinNl parts) =
            pyStr e0 ++ '\n' :: joinNl parts :=
          stripRight_append_right hb hbs (pyStr e0)
        rw [List.append_assoc, stripRight_append_right hb2 hb2s,
          stripLeft_ws_append (by decide)]
        obtain ⟨c0, t0, hct0⟩ : ∃ c0 t0, pyStr e0 = c0 :: t0 := by
          cases hc : pyStr e0 with
          | nil => exact absurd hc hne0
          | cons c0 t0 => exact ⟨c0, t0, rfl⟩
        have hhead0 : isWsChar c0 = false := by
          have hsl := (pyStrip_eq_self_parts hstrip0).1
          rw [hct0] at hsl
          exact head_not_ws_of_stripLeft hsl
        rw [hct0, List.cons_append, stripLeft_cons_of_not_ws _ hhead0]
      show decodeRawL (serializeL (.ls (e0 :: e1 :: rest))) = _
      rw [hser]
      unfold decodeRawL
      rw [if_pos (by simp)]
      unfold decodeLines
      rw [splitOnChar_append_sep '\n' (pyStr e0) hnl0,
        splitOnChar_joinNl parts hpartsNe
          (fun p hm => (hpartFacts p hm).2.2)]
      simp only [List.map_cons]
      rw [show unserialize (pyStr e0) = e0 from unserialize_good_scalar hgood0,
        hparts, map_unserialize_indented (e1 :: rest) hgoodTail]
      rw [filter_ne_empty_string (e0 :: e1 :: rest) (fun e hm =>
        (pyStr_facts (helems e hm)).2.2.2)]

/-- C1 amended witness: the mixed list of the test suite survives the
round trip. -/
theorem round_trip_amended_witness :
    GoodValue (.ls [.i 1, .s "two", .i 3]) ∧
    decodeRawS (serializeS (.ls [.i 1, .s "two", .i 3])) =
      .ls [.i 1, .s "two", .i 3] :=
  ⟨by decide, round_trip_amended (.ls [.i 1, .s "two", .i 3]) (by decide)⟩

end Konfig
